import Mathlib

/-!
Verification of the ray-sphere ASCII renderer (src/main.rs).

Modelling conventions:
* Rust `f32` arithmetic is modelled by exact real arithmetic over `ℝ`.
* IEEE non-finite values (NaN, the only ones the reachable code can
  produce, since every division by zero in it has a zero numerator) are
  modelled by `none` of the type `F := Option ℝ`; operations propagate
  `none` and produce it exactly where IEEE produces a non-finite value
  whose consumers treat it as NaN (`acos` of an out-of-range or
  non-finite argument, `x % 0`, division by zero).
* A Rust panic (`unwrap` on `None`, `Vec` index out of bounds, `usize`
  underflow followed by an out-of-bounds index) is modelled by a `none`
  result of type `Option Char` / `Option (List (List Char))`.
* Rust's saturating `as usize` cast of an `f32` sends NaN and negative
  values to 0 and truncates nonnegative values toward zero; `f2nat`
  reproduces this (the `usize::MAX` saturation point is never reached by
  the quantities the claims exercise).
* Strings are lists of `Char`; `String::split('\n')`, the byte-slice up
  to the first `'\n'` followed by `chars().count()`, and
  `chars().filter(|c| c == '\n').count()` become `splitNl`, `texW` and
  `texH`.

Real-number comparisons are not computable, so the embedded functions
are `noncomputable`; concrete evaluations in the theorems below proceed
by `simp`/`norm_num` instead of `decide`.
-/

open Real
open scoped Classical

noncomputable section

/-- `struct Vec3 { x: f32, y: f32, z: f32 }`. -/
structure Vec3 where
  x : ℝ
  y : ℝ
  z : ℝ

/-- `Vec3::add` (and the identical `impl Add`): componentwise sum. -/
def Vec3.add (a b : Vec3) : Vec3 :=
  ⟨a.x + b.x, a.y + b.y, a.z + b.z⟩

/-- `Vec3::sub` (and the identical `impl Sub`): componentwise difference. -/
def Vec3.sub (a b : Vec3) : Vec3 :=
  ⟨a.x - b.x, a.y - b.y, a.z - b.z⟩

/-- `Vec3::scale` / `impl Mul<f32>`: componentwise scaling. -/
def Vec3.mul (a : Vec3) (s : ℝ) : Vec3 :=
  ⟨a.x * s, a.y * s, a.z * s⟩

/-- `Vec3::dot`. -/
def Vec3.dot (a b : Vec3) : ℝ :=
  a.x * b.x + a.y * b.y + a.z * b.z

/-- `Vec3::cross`. -/
def Vec3.cross (a b : Vec3) : Vec3 :=
  ⟨a.y * b.z - a.z * b.y, a.z * b.x - a.x * b.z, a.x * b.y - a.y * b.x⟩

/-- `fn isect(Vec3 { z: z0, .. }, Vec3 { x: a, y: b, z: c }) -> Option<Vec3>`:
solves `A·t² + B·t + C = 0` with `A = a²+b²+c²`, `B = 2·z0·c`,
`C = z0²−1`; `None` when the discriminant is negative, otherwise the hit
point `(0,0,z0) + (a,b,c)·t` at the smaller root. Only `origin.z` is
read (the Rust pattern destructures just `z`). -/
def isect (origin direction : Vec3) : Option Vec3 :=
  let z0 := origin.z
  let a := direction.x
  let b := direction.y
  let c := direction.z
  let A := a ^ 2 + b ^ 2 + c ^ 2
  let B := 2 * z0 * c
  let C := z0 ^ 2 - 1
  let t : Option ℝ :=
    if B ^ 2 - 4 * A * C < 0 then none
    else some ((-B - Real.sqrt (B ^ 2 - 4 * A * C)) / (2 * A))
  t.map fun tt => Vec3.add ⟨0, 0, z0⟩ (Vec3.mul ⟨a, b, c⟩ tt)

/-- `f32` results that may be IEEE non-finite: `none` models NaN (and the
unreachable infinities). -/
abbrev F := Option ℝ

/-- `struct Coords { lat: f32, long: f32 }`; both components can be NaN. -/
structure Coords where
  lat : F
  long : F

/-- `f32::acos`: NaN outside `[-1, 1]` (and on a non-finite argument). -/
def facos : F → F
  | none => none
  | some v => if 1 < |v| then none else some (Real.arccos v)

/-- The inner `fn angle(x, y, dot_product)` of `toGeometric`:
`(dot_product / sqrt(x*x + y*y)).acos()`. When the magnitude is zero the
IEEE quotient is non-finite (`0/0` at every call site, since the
numerator is one of the projected coordinates), and `acos` of it is NaN. -/
def angle (x y dp : ℝ) : F :=
  let magnitude := Real.sqrt (x * x + y * y)
  if magnitude = 0 then none else facos (some (dp / magnitude))

/-- `fn toGeometric(Vec3 { x, y, z }) -> Coords`:
`lat = angle(y, z, -y)`, `long = angle(x, z, -x)`. -/
def toGeometric (p : Vec3) : Coords :=
  ⟨angle p.y p.z (-p.y), angle p.x p.z (-p.x)⟩

/-- NaN-propagating `f32` addition. -/
def fadd : F → F → F
  | some a, some b => some (a + b)
  | _, _ => none

/-- NaN-propagating `f32` multiplication. -/
def fmul : F → F → F
  | some a, some b => some (a * b)
  | _, _ => none

/-- NaN-propagating `f32` division; division by zero yields a non-finite
value (`none`). At every call site in the program the numerator is then
zero too, so `none` is exactly IEEE's NaN there. -/
def fdiv : F → F → F
  | some a, some b => if b = 0 then none else some (a / b)
  | _, _ => none

/-- Truncation toward zero, as in C's `fmod` quotient. -/
def rtrunc (q : ℝ) : ℤ :=
  if 0 ≤ q then ⌊q⌋ else ⌈q⌉

/-- Rust `f32` `%` (IEEE remainder with the dividend's sign):
`x - y * trunc(x / y)`; NaN when the divisor is zero. -/
def frem : F → F → F
  | some x, some y => if y = 0 then none else some (x - y * (rtrunc (x / y) : ℝ))
  | _, _ => none

/-- Rust saturating `as usize` cast from `f32`: NaN and negatives to 0,
otherwise truncation toward zero. -/
def f2nat : F → ℕ
  | none => 0
  | some r => ⌊r⌋.toNat

/-- `String::split('\n')` on a char list: one piece more than there are
newlines, in order. -/
def splitNl : List Char → List (List Char)
  | [] => [[]]
  | c :: rest =>
    let tail := splitNl rest
    if c = '\n' then [] :: tail
    else (c :: tail.headD []) :: tail.tail

/-- `map[..map.find('\n').unwrap()].chars().count()`: the character count
of the prefix before the first newline. -/
def texW (map : List Char) : ℕ :=
  (map.takeWhile fun c => c ≠ '\n').length

/-- `map.chars().filter(|&c| c == '\n').count()`. -/
def texH (map : List Char) : ℕ :=
  map.count '\n'

/-- `texture3`'s longitude normalization:
`(( coords.long + rot ) + ( PI * 2. )) % ( PI * 2. )`. -/
def texLong (long : F) (rot : ℝ) : F :=
  frem (fadd (fadd long (some rot)) (some (π * 2))) (some (π * 2))

/-- `texture3`'s column: `long * w / (2. * PI)`. -/
def texX (long : F) (w : ℕ) : F :=
  fdiv (fmul long (some (w : ℝ))) (some (2 * π))

/-- `texture3`'s row scan position: `( lat + 0. ) * h / PI`. -/
def texY (lat : F) (h : ℕ) : F :=
  fdiv (fmul (fadd lat (some 0)) (some (h : ℝ))) (some π)

/-- `fn texture3(coords, rot, map) -> char`, up to its `return` on the
sampled glyph (the Braille code after that `return` is dead code).
`none` models a panic: `map.find('\n').unwrap()` on a newline-free map,
or the `usize` subtraction/`Vec` indexing `lines[h - y]` leaving bounds
(in release mode the wrapped difference still indexes out of the
`h + 1`-element `lines` vector). In-bounds rows use
`.chars().nth(x).unwrap_or(' ')`. -/
def texture3 (coords : Coords) (rot : ℝ) (map : List Char) : Option Char :=
  if '\n' ∈ map then
    let long := texLong coords.long rot
    let lat := coords.lat
    let w := texW map
    let h := texH map
    let xn := f2nat (texX long w)
    let yn := f2nat (texY lat h)
    if h < yn then none
    else ((splitNl map).get? (h - yn)).map fun line => (line.get? xn).getD ' '
  else none

/-- One pixel of `draw`: the ray direction for pixel `(x, y)` at width
`w`, intersected, mapped, sampled; a miss prints `' '` via `map_or`. -/
def drawPixel (w : ℕ) (rot : ℝ) (map : List Char) (x y : ℕ) : Option Char :=
  ((isect ⟨0, 0, -1.5⟩
      ⟨(x : ℝ) * 4 / (w : ℝ) - 2, (y : ℝ) * (-2) / ((w : ℝ) / 4) + 1, 1⟩).map
      toGeometric).elim (some ' ') fun c => texture3 c rot map

/-- Sequencing of per-glyph results: `none` (a panic anywhere) poisons
the whole frame. -/
def seqOpt {α : Type} : List (Option α) → Option (List α)
  | [] => some []
  | o :: rest => o.bind fun a => (seqOpt rest).map fun l => a :: l

/-- `fn draw(w: u8, rot, map)`: rows `y ∈ [0, w/4)` (integer division),
columns `x ∈ [0, w)`, as a list of glyph rows. -/
def draw (w : ℕ) (rot : ℝ) (map : List Char) : Option (List (List Char)) :=
  seqOpt ((List.range (w / 4)).map fun y =>
    seqOpt ((List.range w).map fun x => drawPixel w rot map x y))

/-- `main`'s width: `contents[..contents.find('\n').unwrap()].chars().count() as u8`;
the `as u8` cast truncates modulo 256, the later `w *= 1` is inert, and a
newline-free file panics the `unwrap` (`none`). -/
def mainWidth (contents : List Char) : Option ℕ :=
  if '\n' ∈ contents then some (texW contents % 256) else none

/-- The rotation after `n` frames: `rot` starts at `0.` and the loop does
`rot += PI / 30.` once per frame. -/
def rotSeq : ℕ → ℝ
  | 0 => 0
  | n + 1 => rotSeq n + π / 30

/-- The texture-file format of the data model: a nonempty list of
equal-width rows, each row followed by one `'\n'` (the spec's
`TextureMap` invariant — the file is a full rectangular grid with one
line break per row). -/
def gridMap (rows : List (List Char)) : List Char :=
  (rows.map fun r => r ++ ['\n']).flatten

/-- The 64×16 all-`'#'` texture map of the end-to-end scenario. -/
def map64 : List Char :=
  gridMap (List.replicate 16 (List.replicate 64 '#'))

/-- The minimal 1×1 texture map `"X\n"`. -/
def mapX : List Char :=
  gridMap [['X']]

/-! ## Shared lemmas about the texture-map string functions -/

lemma splitNl_ne_nil : ∀ s : List Char, splitNl s ≠ []
  | [] => by simp [splitNl]
  | c :: rest => by
      simp only [splitNl]
      split_ifs <;> simp

lemma splitNl_length (s : List Char) : (splitNl s).length = s.count '\n' + 1 := by
  induction s with
  | nil => simp [splitNl]
  | cons c rest ih =>
      obtain ⟨l, ls, hl⟩ : ∃ l ls, splitNl rest = l :: ls := by
        cases h : splitNl rest with
        | nil => exact absurd h (splitNl_ne_nil rest)
        | cons l ls => exact ⟨l, ls, rfl⟩
      by_cases hc : c = '\n'
      · subst hc
        simp [splitNl, hl, List.count_cons, ih] at *
        omega
      · simp [splitNl, hc, hl, List.count_cons, ih] at *
        omega

lemma splitNl_append_row (r rest : List Char) (h : '\n' ∉ r) :
    splitNl (r ++ '\n' :: rest) = r :: splitNl rest := by
  induction r with
  | nil => simp [splitNl]
  | cons c cs ih =>
      have hc : c ≠ '\n' := fun e => h (e ▸ List.mem_cons_self _ _)
      have h' : '\n' ∉ cs := fun m => h (List.mem_cons_of_mem _ m)
      simp only [List.cons_append, splitNl, hc, if_false, List.append_eq]
      rw [ih h']
      simp

/-- A well-formed texture file is a nonempty list of newline-free rows,
each terminated by a `'\n'`; `split('\n')` then recovers the rows plus
one empty trailing piece. -/
lemma splitNl_flatten (rows : List (List Char)) (h : ∀ r ∈ rows, '\n' ∉ r) :
    splitNl ((rows.map fun r => r ++ ['\n']).flatten) = rows ++ [[]] := by
  induction rows with
  | nil => simp [splitNl]
  | cons r rs ih =>
      have hflat : (((r :: rs).map fun t => t ++ ['\n']).flatten) =
          r ++ '\n' :: ((rs.map fun t => t ++ ['\n']).flatten) := by simp
      rw [hflat, splitNl_append_row r _ (h r (by simp)),
        ih fun a ha => h a (by simp [ha])]
      simp

lemma count_nl_flatten (rows : List (List Char)) (h : ∀ r ∈ rows, '\n' ∉ r) :
    texH ((rows.map fun r => r ++ ['\n']).flatten) = rows.length := by
  induction rows with
  | nil => simp [texH]
  | cons r rs ih =>
      have hr : r.count '\n' = 0 := List.count_eq_zero.2 (h r (by simp))
      have := ih fun a ha => h a (by simp [ha])
      simp only [texH] at *
      simp [List.count_append, hr, this]

lemma nl_mem_flatten (r : List Char) (rs : List (List Char)) :
    '\n' ∈ (((r :: rs).map fun t => t ++ ['\n']).flatten) := by
  simp

lemma takeWhile_all_append_cons (p : Char → Bool) (r : List Char) (c : Char)
    (rest : List Char) (hr : ∀ a ∈ r, p a = true) (hc : p c = false) :
    (r ++ c :: rest).takeWhile p = r := by
  induction r with
  | nil => simp [List.takeWhile_cons, hc]
  | cons d ds ih =>
      have hd : p d = true := hr d (by simp)
      simp [List.takeWhile_cons, hd, ih fun a ha => hr a (by simp [ha])]

lemma texW_flatten (r : List Char) (rs : List (List Char)) (h : '\n' ∉ r) :
    texW (((r :: rs).map fun t => t ++ ['\n']).flatten) = r.length := by
  have hflat : (((r :: rs).map fun t => t ++ ['\n']).flatten) =
      r ++ '\n' :: ((rs.map fun t => t ++ ['\n']).flatten) := by simp
  rw [texW, hflat,
    takeWhile_all_append_cons _ r '\n' _
      (fun a ha => by
        simp only [decide_eq_true_eq]
        exact fun e => h (e ▸ ha))
      (by simp)]

lemma get?_append_last (rows : List (List Char)) :
    (rows ++ [[]]).get? rows.length = some [] := by
  rw [List.get?_append_right (le_refl _)]
  simp

/-- `acos` puts the mapper's latitude in `[0, π]` whenever it is not NaN. -/
lemma toGeometric_lat_range (p : Vec3) :
    (toGeometric p).lat = none ∨
    ∃ v, (toGeometric p).lat = some v ∧ 0 ≤ v ∧ v ≤ π := by
  simp only [toGeometric, angle, facos]
  split_ifs with h1 h2
  · exact Or.inl rfl
  · exact Or.inl rfl
  · exact Or.inr ⟨_, rfl, Real.arccos_nonneg _, Real.arccos_le_pi _⟩

/-- A latitude that is NaN or lies in `[0, π]` never scans past row `h`. -/
lemma texY_le (lat : F) (h : ℕ)
    (hlat : lat = none ∨ ∃ v, lat = some v ∧ 0 ≤ v ∧ v ≤ π) :
    f2nat (texY lat h) ≤ h := by
  rcases hlat with hnan | ⟨v, hv, hv0, hvπ⟩
  · subst hnan
    simp [texY, fadd, fmul, fdiv, f2nat]
  · subst hv
    have hπ : (0 : ℝ) < π := pi_pos
    simp only [texY, fadd, fmul, fdiv, f2nat]
    rw [if_neg hπ.ne']
    have hle : (v + 0) * (h : ℝ) / π ≤ (h : ℝ) := by
      rw [div_le_iff hπ]
      have hh : (0 : ℝ) ≤ (h : ℝ) := Nat.cast_nonneg h
      nlinarith
    have : ⌊(v + 0) * (h : ℝ) / π⌋ ≤ (h : ℤ) := by
      calc ⌊(v + 0) * (h : ℝ) / π⌋ ≤ ⌊(h : ℝ)⌋ := Int.floor_le_floor hle
      _ = (h : ℤ) := Int.floor_natCast h
    exact Int.toNat_le.2 this

/-- Unfolding `texture3` on a well-formed grid: provided the scan
position `y` does not pass row `h`, the sampler indexes `split`'s piece
`h − y` and falls back to `' '` on a short or exhausted row. -/
lemma texture3_of_grid (rows : List (List Char)) (c : Coords) (rot : ℝ)
    (hnonl : ∀ r ∈ rows, '\n' ∉ r) (hne : rows ≠ [])
    (hyn : f2nat (texY c.lat rows.length) ≤ rows.length) :
    ∃ line,
      (rows ++ [[]]).get? (rows.length - f2nat (texY c.lat rows.length)) = some line ∧
      texture3 c rot (gridMap rows) =
        some ((line.get? (f2nat (texX (texLong c.long rot) (texW (gridMap rows))))).getD ' ') := by
  obtain ⟨r, rs, rfl⟩ : ∃ r rs, rows = r :: rs := by
    cases rows with
    | nil => exact absurd rfl hne
    | cons r rs => exact ⟨r, rs, rfl⟩
  have hgm : gridMap (r :: rs) = (((r :: rs).map fun t => t ++ ['\n']).flatten) := rfl
  have hmem : '\n' ∈ gridMap (r :: rs) := by rw [hgm]; exact nl_mem_flatten r rs
  have hH : texH (gridMap (r :: rs)) = (r :: rs).length := by
    rw [hgm]; exact count_nl_flatten _ hnonl
  have hsplit : splitNl (gridMap (r :: rs)) = (r :: rs) ++ [[]] := by
    rw [hgm]; exact splitNl_flatten _ hnonl
  have hidx : (r :: rs).length - f2nat (texY c.lat (r :: rs).length) <
      ((r :: rs) ++ [[]]).length := by
    rw [List.length_append]
    simp only [List.length_singleton]
    omega
  refine ⟨_, List.get?_eq_get hidx, ?_⟩
  simp only [texture3, if_pos hmem, hH, hsplit]
  rw [if_neg (by omega : ¬ (r :: rs).length < f2nat (texY c.lat (r :: rs).length))]
  rw [List.get?_eq_get hidx]
  rfl

/-- The normalized longitude is always strictly below the modulus
`π · 2` (with any dividend sign). -/
lemma texLong_lt (long rot : ℝ) :
    ∃ r, texLong (some long) rot = some r ∧ r < π * 2 := by
  have h2 : (0 : ℝ) < π * 2 := by positivity
  simp only [texLong, fadd, frem]
  rw [if_neg h2.ne']
  refine ⟨_, rfl, ?_⟩
  set a := long + rot + π * 2 with ha
  by_cases hq : 0 ≤ a / (π * 2)
  · rw [rtrunc, if_pos hq]
    have := Int.fract_lt_one (a / (π * 2))
    have hfr : a - π * 2 * (⌊a / (π * 2)⌋ : ℝ) = (π * 2) * Int.fract (a / (π * 2)) := by
      rw [Int.fract]
      field_simp
    rw [hfr]
    calc (π * 2) * Int.fract (a / (π * 2)) < (π * 2) * 1 :=
          (mul_lt_mul_left h2).2 this
    _ = π * 2 := mul_one _
  · rw [rtrunc, if_neg hq]
    have hceil : a / (π * 2) ≤ (⌈a / (π * 2)⌉ : ℝ) := Int.le_ceil _
    have : a ≤ π * 2 * (⌈a / (π * 2)⌉ : ℝ) := by
      rw [← div_le_iff' h2]
      exact hceil
    linarith

/-! ## Claim C4: longitude normalization (corrected) -/

/-- C4 fails as stated: at `coords.long = 0` and `rotation = −3π` the
dividend `(0 + (−3π)) + 2π = −π` is negative, and Rust's `%` keeps the
dividend's sign, so the "normalized" longitude is `−π`, not in `[0, 2π)`. -/
theorem texLong_counterexample :
    texLong (some 0) (-3 * π) = some (-π) ∧ ¬ (0 ≤ (-π : ℝ)) := by
  have h2 : (0 : ℝ) < π * 2 := by positivity
  constructor
  · simp only [texLong, fadd, frem]
    rw [if_neg h2.ne']
    have harg : (0 : ℝ) + -3 * π + π * 2 = -π := by ring
    rw [harg]
    have hq : (-π) / (π * 2) = -(1 / 2) := by
      field_simp
    have ht : rtrunc (-(1 / 2) : ℝ) = 0 := by
      rw [rtrunc, if_neg (by norm_num)]
      norm_num [Int.ceil_eq_zero_iff, Set.mem_Ioc]
    rw [hq, ht]
    norm_num
  · simpa using pi_pos

/-- C4 amended: the rotated longitude
`((coords.long + rotation) + 2π) mod 2π` lies in `[0, 2π)` whenever the
dividend `coords.long + rotation + 2π` is nonnegative — in particular
whenever `coords.long + rotation ≥ −2π`, which covers every call the
program makes (`coords.long ∈ [0, π]` from `acos`, `rotation ≥ 0`); for
more negative sums Rust's sign-preserving `%` returns a negative value. -/
theorem texLong_range_spec (long rot : ℝ) (h : 0 ≤ long + rot + π * 2) :
    ∃ r, texLong (some long) rot = some r ∧ 0 ≤ r ∧ r < π * 2 := by
  have h2 : (0 : ℝ) < π * 2 := by positivity
  simp only [texLong, fadd, frem]
  rw [if_neg h2.ne']
  refine ⟨_, rfl, ?_, ?_⟩
  · have hq : 0 ≤ (long + rot + π * 2) / (π * 2) := div_nonneg h h2.le
    rw [rtrunc, if_pos hq]
    have hfr : long + rot + π * 2 - π * 2 * (⌊(long + rot + π * 2) / (π * 2)⌋ : ℝ) =
        (π * 2) * Int.fract ((long + rot + π * 2) / (π * 2)) := by
      rw [Int.fract]
      field_simp
    rw [hfr]
    exact mul_nonneg h2.le (Int.fract_nonneg _)
  · obtain ⟨r, hr, hlt⟩ := texLong_lt long rot
    have : r = long + rot + π * 2 -
        π * 2 * (rtrunc ((long + rot + π * 2) / (π * 2)) : ℝ) := by
      have := hr
      simp only [texLong, fadd, frem] at this
      rw [if_neg h2.ne'] at this
      exact (Option.some_injective ℝ this).symm
    rw [← this]
    exact hlt

/-- Witness for C4 amended at `long = 0`, `rot = 0`. -/
theorem texLong_range_spec_witness :
    ∃ r, texLong (some 0) 0 = some r ∧ 0 ≤ r ∧ r < π * 2 :=
  texLong_range_spec 0 0 (by positivity)

/-! ## Claim C1: the intersector's quadratic contract -/

/-- C1: for every ray origin and direction, with `z0 = origin.z`,
`(a,b,c) = direction`, `A = a²+b²+c²`, `B = 2·z0·c`, `C = z0²−1`,
`D = B²−4AC`, the intersector returns `none` exactly when `D < 0`,
otherwise `some` of `(0,0,z0) + direction·t` with the smaller root
`t = (−B − √D)/(2A)`; and the origin's `x` and `y` components never
affect the result. -/
theorem isect_contract_spec (o d : Vec3) :
    (isect o d = none ↔
      (2 * o.z * d.z) ^ 2 - 4 * (d.x ^ 2 + d.y ^ 2 + d.z ^ 2) * (o.z ^ 2 - 1) < 0) ∧
    (∀ a b : ℝ, isect ⟨a, b, o.z⟩ d = isect o d) ∧
    (¬ (2 * o.z * d.z) ^ 2 - 4 * (d.x ^ 2 + d.y ^ 2 + d.z ^ 2) * (o.z ^ 2 - 1) < 0 →
      isect o d = some
        (Vec3.add ⟨0, 0, o.z⟩ (Vec3.mul d
          ((-(2 * o.z * d.z) -
              Real.sqrt
                ((2 * o.z * d.z) ^ 2 -
                  4 * (d.x ^ 2 + d.y ^ 2 + d.z ^ 2) * (o.z ^ 2 - 1))) /
            (2 * (d.x ^ 2 + d.y ^ 2 + d.z ^ 2)))))) := by
  refine ⟨?_, fun a b => rfl, fun h => ?_⟩
  · simp only [isect]
    split_ifs with h
    · simpa using h
    · simpa using h
  · simp only [isect]
    rw [if_neg h]
    rfl

/-- Witness for C1 at origin `(0,0,−1.5)`, direction `(0,0,1)`, where the
discriminant is `4 ≥ 0`. -/
theorem isect_contract_spec_witness :
    isect ⟨0, 0, -1.5⟩ ⟨0, 0, 1⟩ = some
      (Vec3.add ⟨0, 0, (-1.5 : ℝ)⟩ (Vec3.mul ⟨0, 0, 1⟩
        ((-(2 * (-1.5 : ℝ) * 1) -
            Real.sqrt
              ((2 * (-1.5 : ℝ) * 1) ^ 2 -
                4 * ((0 : ℝ) ^ 2 + (0 : ℝ) ^ 2 + (1 : ℝ) ^ 2) * ((-1.5 : ℝ) ^ 2 - 1))) /
          (2 * ((0 : ℝ) ^ 2 + (0 : ℝ) ^ 2 + (1 : ℝ) ^ 2))))) :=
  (isect_contract_spec ⟨0, 0, -1.5⟩ ⟨0, 0, 1⟩).2.2 (by norm_num)

/-! ## Claim C2: the coordinate mapper's acos formulas -/

lemma angle_proj_eq (u v : ℝ) (h : u * u + v * v ≠ 0) :
    angle u v (-u) = some (Real.arccos (-u / Real.sqrt (u * u + v * v))) := by
  have hpos : 0 < u * u + v * v :=
    lt_of_le_of_ne (add_nonneg (mul_self_nonneg u) (mul_self_nonneg v)) (Ne.symm h)
  have hm : 0 < Real.sqrt (u * u + v * v) := Real.sqrt_pos.2 hpos
  have habs : |u| ≤ Real.sqrt (u * u + v * v) := by
    calc |u| = Real.sqrt (u * u) := (Real.sqrt_mul_self_eq_abs u).symm
    _ ≤ Real.sqrt (u * u + v * v) := Real.sqrt_le_sqrt (by nlinarith)
  have hq : ¬ 1 < |(-u) / Real.sqrt (u * u + v * v)| := by
    rw [not_lt, abs_div, abs_neg, abs_of_pos hm, div_le_one hm]
    exact habs
  simp only [angle, facos]
  rw [if_neg hm.ne', if_neg hq]

/-- C2: for every nondegenerate input point `p` the mapper computes
`lat = acos(−p.y / √(p.y² + p.z²))` and `long = acos(−p.x / √(p.x² + p.z²))`,
and on the point `(0, 0, −1)` it yields `lat = π/2` exactly. -/
theorem toGeometric_formula_spec (p : Vec3)
    (hyz : p.y ^ 2 + p.z ^ 2 ≠ 0) (hxz : p.x ^ 2 + p.z ^ 2 ≠ 0) :
    (toGeometric p).lat = some (Real.arccos (-p.y / Real.sqrt (p.y ^ 2 + p.z ^ 2))) ∧
    (toGeometric p).long = some (Real.arccos (-p.x / Real.sqrt (p.x ^ 2 + p.z ^ 2))) ∧
    (toGeometric ⟨0, 0, -1⟩).lat = some (π / 2) := by
  have hsq : ∀ a : ℝ, a ^ 2 = a * a := fun a => sq a
  refine ⟨?_, ?_, ?_⟩
  · simp only [toGeometric, hsq]
    exact angle_proj_eq p.y p.z (by rw [← hsq p.y, ← hsq p.z]; exact hyz)
  · simp only [toGeometric, hsq]
    exact angle_proj_eq p.x p.z (by rw [← hsq p.x, ← hsq p.z]; exact hxz)
  · have h0 : ((0 : ℝ) * 0 + (-1) * (-1)) = 1 := by norm_num
    simp only [toGeometric, angle, h0, Real.sqrt_one]
    rw [if_neg one_ne_zero]
    simp [facos, Real.arccos_zero]

/-- Witness for C2 at `p = (1, 1, 1)`. -/
theorem toGeometric_formula_spec_witness :
    (toGeometric ⟨1, 1, 1⟩).lat =
      some (Real.arccos (-(1 : ℝ) / Real.sqrt ((1 : ℝ) ^ 2 + (1 : ℝ) ^ 2))) ∧
    (toGeometric ⟨1, 1, 1⟩).long =
      some (Real.arccos (-(1 : ℝ) / Real.sqrt ((1 : ℝ) ^ 2 + (1 : ℝ) ^ 2))) ∧
    (toGeometric ⟨0, 0, -1⟩).lat = some (π / 2) :=
  toGeometric_formula_spec ⟨1, 1, 1⟩ (by norm_num) (by norm_num)

/-! ## Claim C10: the width is the first line's char count as `u8` -/

/-- C10: the width driving ray generation is the character count before
the first line break cast to `u8`, i.e. taken modulo 256 (a first line of
300 characters silently becomes width 44), and any width below 4 makes
`draw` produce a frame with zero rows. -/
theorem width_truncation_spec (contents : List Char) (w : ℕ) (rot : ℝ)
    (map : List Char) (hnl : '\n' ∈ contents) (hw : w < 4) :
    mainWidth contents = some ((contents.takeWhile fun c => c ≠ '\n').length % 256) ∧
    mainWidth (List.replicate 300 'a' ++ ['\n']) = some 44 ∧
    draw w rot map = some [] := by
  refine ⟨?_, ?_, ?_⟩
  · simp [mainWidth, hnl, texW]
  · have hmem : '\n' ∈ List.replicate 300 'a' ++ ['\n'] :=
      List.mem_append.2 (Or.inr (List.mem_singleton.2 rfl))
    have htw : texW (List.replicate 300 'a' ++ ['\n']) = 300 := by
      rw [texW, show List.replicate 300 'a' ++ ['\n'] =
        List.replicate 300 'a' ++ '\n' :: [] from rfl,
        takeWhile_all_append_cons _ _ _ _
          (fun a ha => by
            simp only [decide_eq_true_eq]
            rw [List.eq_of_mem_replicate ha]
            decide)
          (by decide),
        List.length_replicate]
    rw [mainWidth, if_pos hmem, htw]
  · have h4 : w / 4 = 0 := Nat.div_eq_of_lt hw
    simp [draw, h4, seqOpt]

/-- Witness for C10 at the two-character file `"a\n"` and width 3. -/
theorem width_truncation_spec_witness :
    mainWidth ['a', '\n'] = some ((['a', '\n'].takeWhile fun c => c ≠ '\n').length % 256) ∧
    mainWidth (List.replicate 300 'a' ++ ['\n']) = some 44 ∧
    draw 3 0 ['a', '\n'] = some [] :=
  width_truncation_spec ['a', '\n'] 3 0 ['a', '\n'] (by simp) (by norm_num)

/-! ## Claim C3: out-of-bounds samples yield blanks, never aborts -/

/-- C3: on any well-formed texture map (nonempty newline-terminated rows
of equal width `W`), a sample with `lat ∈ [0, π]` and `long ∈ [0, π]`
never panics — it always returns some glyph — and whenever the computed
column reaches `W` or the computed row `height − y` reaches `height`
(one past the last valid row index, the `lat' ≈ 0` case), that glyph is
the blank space. -/
theorem sample_oob_blank_spec (rows : List (List Char)) (W : ℕ) (lat long rot : ℝ)
    (hne : rows ≠ []) (hnonl : ∀ r ∈ rows, '\n' ∉ r)
    (hrect : ∀ r ∈ rows, r.length = W)
    (hlat0 : 0 ≤ lat) (hlatpi : lat ≤ π) (hlong0 : 0 ≤ long) (hlongpi : long ≤ π) :
    ∃ g, texture3 ⟨some lat, some long⟩ rot (gridMap rows) = some g ∧
      ((W ≤ f2nat (texX (texLong (some long) rot) (texW (gridMap rows))) ∨
          texH (gridMap rows) ≤
            texH (gridMap rows) - f2nat (texY (some lat) (texH (gridMap rows)))) →
        g = ' ') := by
  have hH : texH (gridMap rows) = rows.length := count_nl_flatten rows hnonl
  have hlat' : (some lat : F) = none ∨ ∃ v, (some lat : F) = some v ∧ 0 ≤ v ∧ v ≤ π :=
    Or.inr ⟨lat, rfl, hlat0, hlatpi⟩
  have hyn : f2nat (texY (some lat) rows.length) ≤ rows.length :=
    texY_le _ _ hlat'
  obtain ⟨line, hline, heq⟩ := texture3_of_grid rows ⟨some lat, some long⟩ rot hnonl hne hyn
  refine ⟨_, heq, ?_⟩
  have hpos : 0 < rows.length := List.length_pos.2 hne
  rw [hH]
  set yn := f2nat (texY (some lat) rows.length) with hyndef
  set xn := f2nat (texX (texLong (some long) rot) (texW (gridMap rows))) with hxndef
  intro hoob
  have hlast : rows.length - yn = rows.length → line = [] := by
    intro hidx
    rw [hidx, get?_append_last] at hline
    exact (Option.some.inj hline).symm
  rcases hoob with hcol | hrow
  · by_cases hr : rows.length - yn < rows.length
    · have hmemline : line ∈ rows := by
        rw [List.get?_append hr] at hline
        exact List.get?_mem hline
      have hlen : line.length = W := hrect line hmemline
      have hnone : line.get? xn = none := by
        rw [List.get?_eq_getElem?]
        exact List.getElem?_eq_none (by omega)
      rw [hnone]
      rfl
    · have : line = [] := hlast (by omega)
      simp [this]
  · have : line = [] := hlast (by omega)
    simp [this]

/-- Witness for C3 on the map `"X\n"` at `lat = 0` (row `1 − 0 = 1 =
height`, the off-by-one extreme). -/
theorem sample_oob_blank_spec_witness :
    ∃ g, texture3 ⟨some 0, some 0⟩ 0 (gridMap [['X']]) = some g ∧
      ((1 ≤ f2nat (texX (texLong (some 0) 0) (texW (gridMap [['X']]))) ∨
          texH (gridMap [['X']]) ≤
            texH (gridMap [['X']]) - f2nat (texY (some 0) (texH (gridMap [['X']])))) →
        g = ' ') :=
  sample_oob_blank_spec [['X']] 1 0 0 0 (by simp) (by decide) (by decide)
    (le_refl 0) pi_pos.le (le_refl 0) pi_pos.le

/-! ## Claim C7: a pole point gives a NaN latitude and a blank glyph -/

/-- C7: for a degenerate point with `p.y² + p.z² = 0` the mapper's
latitude divisor is zero, so the latitude is NaN; feeding the result to
the sampler with any rotation and any well-formed texture map resolves
the NaN as row `height` (the `as usize` cast sends NaN to 0) and yields
the blank glyph without panicking. -/
theorem pole_nan_blank_spec (p : Vec3) (rows : List (List Char)) (rot : ℝ)
    (hpole : p.y ^ 2 + p.z ^ 2 = 0)
    (hne : rows ≠ []) (hnonl : ∀ r ∈ rows, '\n' ∉ r) :
    (toGeometric p).lat = none ∧
    texture3 (toGeometric p) rot (gridMap rows) = some ' ' := by
  have hyz : p.y * p.y + p.z * p.z = 0 := by nlinarith [hpole]
  have hlat : (toGeometric p).lat = none := by
    simp only [toGeometric, angle]
    rw [hyz, Real.sqrt_zero, if_pos rfl]
  refine ⟨hlat, ?_⟩
  have hyn0 : f2nat (texY (toGeometric p).lat rows.length) = 0 := by
    rw [hlat]
    simp [texY, fadd, fmul, fdiv, f2nat]
  obtain ⟨line, hline, heq⟩ := texture3_of_grid rows (toGeometric p) rot hnonl hne
    (by rw [hyn0]; exact Nat.zero_le _)
  rw [hyn0, Nat.sub_zero, get?_append_last] at hline
  have hempty : line = [] := (Option.some.inj hline).symm
  rw [heq, hempty]
  simp

/-- Witness for C7 at the pole point `(1, 0, 0)` and the map `"X\n"`. -/
theorem pole_nan_blank_spec_witness :
    (toGeometric ⟨1, 0, 0⟩).lat = none ∧
    texture3 (toGeometric ⟨1, 0, 0⟩) 0 (gridMap [['X']]) = some ' ' :=
  pole_nan_blank_spec ⟨1, 0, 0⟩ [['X']] 0 (by norm_num) (by simp) (by decide)

/-! ## Claim C8: the minimal 1×1 map (corrected) -/

/-- C8 fails as stated: the in-range sample `lat = π/2` (with rotated
longitude `0 ∈ [0, 2π)`) addresses row `height − 0 = 1`, the empty piece
after the last newline, and returns the blank, not `'X'`. -/
theorem sample_minimal_counterexample :
    texLong (some 0) 0 = some 0 ∧
    texture3 ⟨some (π / 2), some 0⟩ 0 mapX = some ' ' ∧ ¬ (' ' = 'X') := by
  have hπ : (0 : ℝ) < π := pi_pos
  have h2π : (0 : ℝ) < 2 * π := by positivity
  have hmem : '\n' ∈ mapX := by decide
  have hW : texW mapX = 1 := by decide
  have hH : texH mapX = 1 := by decide
  have hsplit : splitNl mapX = [['X'], []] := by decide
  have hlong : texLong (some 0) 0 = some 0 := by
    simp only [texLong, fadd, frem]
    rw [if_neg (by positivity : (π * 2 : ℝ) ≠ 0)]
    rw [show (0 : ℝ) + 0 + π * 2 = π * 2 by ring]
    rw [div_self (by positivity : (π * 2 : ℝ) ≠ 0)]
    rw [rtrunc, if_pos (by norm_num : (0 : ℝ) ≤ 1)]
    norm_num
  refine ⟨hlong, ?_, by decide⟩
  have hx : f2nat (texX (texLong (some 0) 0) (texW mapX)) = 0 := by
    rw [hW, hlong]
    simp only [texX, fmul, fdiv, Nat.cast_one, mul_one, zero_mul]
    rw [if_neg h2π.ne']
    simp [f2nat]
  have hy : f2nat (texY (some (π / 2)) 1) = 0 := by
    simp only [texY, fadd, fmul, fdiv, Nat.cast_one, mul_one, add_zero]
    rw [if_neg hπ.ne']
    simp only [f2nat]
    refine Int.toNat_eq_zero.2 ?_
    have hq : π / 2 / π < 1 := by
      rw [div_lt_one hπ]
      linarith
    have : ⌊π / 2 / π⌋ < (1 : ℤ) := Int.floor_lt.2 (by exact_mod_cast hq)
    omega
  simp [texture3, hmem, hx, hy, hH, hsplit]

/-- C8 amended: `width` and `height` are computed as 1 and 1, but the
row inversion `height − y` addresses the single in-bounds row 0 only at
`lat = π` exactly (where the glyph is `'X'`); every sample with
`lat ∈ [0, π)` addresses row 1 — one past the last valid index — and
returns the blank, for every longitude and rotation. -/
theorem sample_minimal_spec (lat long rot : ℝ) (h0 : 0 ≤ lat) (hpi : lat ≤ π) :
    texW mapX = 1 ∧ texH mapX = 1 ∧
    texture3 ⟨some lat, some long⟩ rot mapX = some (if lat = π then 'X' else ' ') := by
  have hπ : (0 : ℝ) < π := pi_pos
  have h2π : (0 : ℝ) < 2 * π := by positivity
  have hmem : '\n' ∈ mapX := by decide
  have hW : texW mapX = 1 := by decide
  have hH : texH mapX = 1 := by decide
  have hsplit : splitNl mapX = [['X'], []] := by decide
  refine ⟨hW, hH, ?_⟩
  obtain ⟨r, hr, hrlt⟩ := texLong_lt long rot
  have hx : f2nat (texX (texLong (some long) rot) (texW mapX)) = 0 := by
    rw [hW, hr]
    simp only [texX, fmul, fdiv, Nat.cast_one, mul_one]
    rw [if_neg h2π.ne']
    simp only [f2nat]
    refine Int.toNat_eq_zero.2 ?_
    have hq : r / (2 * π) < 1 := by
      rw [div_lt_one h2π]
      linarith
    have : ⌊r / (2 * π)⌋ < (1 : ℤ) := Int.floor_lt.2 (by exact_mod_cast hq)
    omega
  by_cases hlat : lat = π
  · subst hlat
    have hy : f2nat (texY (some π) 1) = 1 := by
      simp only [texY, fadd, fmul, fdiv, Nat.cast_one, mul_one, add_zero]
      rw [if_neg hπ.ne', div_self hπ.ne']
      simp [f2nat]
    simp [texture3, hmem, hx, hy, hH, hsplit]
  · have hlt : lat < π := lt_of_le_of_ne hpi hlat
    have hy : f2nat (texY (some lat) 1) = 0 := by
      simp only [texY, fadd, fmul, fdiv, Nat.cast_one, mul_one, add_zero]
      rw [if_neg hπ.ne']
      simp only [f2nat]
      refine Int.toNat_eq_zero.2 ?_
      have hq : lat / π < 1 := by
        rw [div_lt_one hπ]
        exact hlt
      have : ⌊lat / π⌋ < (1 : ℤ) := Int.floor_lt.2 (by exact_mod_cast hq)
      omega
    simp [texture3, hmem, hx, hy, hH, hsplit, hlat]

/-- Witness for C8 amended at `lat = π`, where the sample is `'X'`. -/
theorem sample_minimal_spec_witness :
    texW mapX = 1 ∧ texH mapX = 1 ∧
    texture3 ⟨some π, some 0⟩ 0 mapX = some (if π = π then 'X' else ' ') :=
  sample_minimal_spec π 0 0 pi_pos.le (le_refl π)

/-! ## Claim C5: the all-`'#'` 64×16 end-to-end frame -/

lemma seqOpt_all_some {α : Type} (P : α → Prop) (l : List (Option α))
    (h : ∀ o ∈ l, ∃ a, o = some a ∧ P a) :
    ∃ out, seqOpt l = some out ∧ out.length = l.length ∧ ∀ a ∈ out, P a := by
  induction l with
  | nil => exact ⟨[], rfl, rfl, by simp⟩
  | cons o rest ih =>
      obtain ⟨a, ha, hPa⟩ := h o (by simp)
      obtain ⟨out, hout, hlen, hP⟩ := ih fun o' ho' => h o' (by simp [ho'])
      refine ⟨a :: out, ?_, by simp [hlen], ?_⟩
      · simp [seqOpt, ha, hout]
      · intro a' ha'
        rcases List.mem_cons.1 ha' with h1 | h2
        · exact h1 ▸ hPa
        · exact hP a' h2

lemma texture3_map64_glyph (c : Coords) (rot : ℝ)
    (hlat : c.lat = none ∨ ∃ v, c.lat = some v ∧ 0 ≤ v ∧ v ≤ π) :
    ∃ g, texture3 c rot map64 = some g ∧ (g = '#' ∨ g = ' ') := by
  set rows : List (List Char) := List.replicate 16 (List.replicate 64 '#') with hrows
  have hne : rows ≠ [] := by rw [hrows]; simp
  have hnonl : ∀ r ∈ rows, '\n' ∉ r := by
    intro r hrmem
    rw [hrows] at hrmem
    rw [List.eq_of_mem_replicate hrmem]
    intro hmem
    exact absurd (List.eq_of_mem_replicate hmem) (by decide)
  have hyn : f2nat (texY c.lat rows.length) ≤ rows.length := texY_le _ _ hlat
  obtain ⟨line, hline, heq⟩ := texture3_of_grid rows c rot hnonl hne hyn
  have hmem' : line ∈ rows ++ [[]] := List.get?_mem hline
  refine ⟨_, heq, ?_⟩
  rcases List.mem_append.1 hmem' with hrow | hlastm
  · rw [hrows] at hrow
    have hl : line = List.replicate 64 '#' := List.eq_of_mem_replicate hrow
    cases hget : line.get? (f2nat (texX (texLong c.long rot) (texW (gridMap rows)))) with
    | none => simp [hget]
    | some ch =>
        have : ch ∈ line := List.get?_mem hget
        rw [hl] at this
        have := List.eq_of_mem_replicate this
        simp [hget, this]
  · have : line = [] := by simpa using hlastm
    simp [this]

lemma drawPixel_map64 (rot : ℝ) (x y : ℕ) :
    ∃ g, drawPixel 64 rot map64 x y = some g ∧ (g = '#' ∨ g = ' ') := by
  cases hi : isect ⟨0, 0, -1.5⟩
      ⟨(x : ℝ) * 4 / ((64 : ℕ) : ℝ) - 2,
        (y : ℝ) * (-2) / (((64 : ℕ) : ℝ) / 4) + 1, 1⟩ with
  | none =>
      refine ⟨' ', ?_, Or.inr rfl⟩
      rw [drawPixel, hi]
      rfl
  | some p =>
      obtain ⟨g, hg, hor⟩ := texture3_map64_glyph (toGeometric p) rot
        (toGeometric_lat_range p)
      refine ⟨g, ?_, hor⟩
      rw [drawPixel, hi]
      simpa using hg

/-- C5: for every rotation, rendering one frame from the 64×16 all-`'#'`
texture map produces exactly `64 / 4 = 16` rows of exactly 64 glyphs
each, every glyph being `'#'` or the blank space. -/
theorem draw_frame_spec (rot : ℝ) :
    ∃ frame, draw 64 rot map64 = some frame ∧ frame.length = 16 ∧
      ∀ row ∈ frame, row.length = 64 ∧ ∀ g ∈ row, g = '#' ∨ g = ' ' := by
  obtain ⟨frame, hf1, hf2, hf3⟩ := seqOpt_all_some
    (fun row => row.length = 64 ∧ ∀ g ∈ row, g = '#' ∨ g = ' ')
    ((List.range (64 / 4)).map fun y =>
      seqOpt ((List.range 64).map fun x => drawPixel 64 rot map64 x y))
    (by
      intro o ho
      obtain ⟨y, hy, rfl⟩ := List.mem_map.1 ho
      obtain ⟨out, h1, h2, h3⟩ := seqOpt_all_some (fun g => g = '#' ∨ g = ' ')
        ((List.range 64).map fun x => drawPixel 64 rot map64 x y)
        (by
          intro o' ho'
          obtain ⟨x, hx, rfl⟩ := List.mem_map.1 ho'
          exact drawPixel_map64 rot x y)
      exact ⟨out, h1, by simpa using h2, h3⟩)
  refine ⟨frame, hf1, ?_, hf3⟩
  rw [hf2]
  simp

/-! ## Claim C6: the rotation angle strictly increases by one fixed step -/

/-- C6: across every iteration of the animation loop the rotation angle
advances by exactly the fixed step `π/30` (this build's constant; the
spec names `π/90` as the other build's choice), hence strictly increases
and is never reset: after `n` frames it equals `n · (π/30)`. -/
theorem rotation_monotone_spec (n : ℕ) :
    rotSeq (n + 1) = rotSeq n + π / 30 ∧
    rotSeq n < rotSeq (n + 1) ∧
    rotSeq n = (n : ℝ) * (π / 30) := by
  refine ⟨rfl, ?_, ?_⟩
  · have h : 0 < π / 30 := by positivity
    simp only [rotSeq]
    linarith
  · induction n with
    | zero => simp [rotSeq]
    | succ m ih =>
        simp only [rotSeq, ih]
        push_cast
        ring

/-! ## Claim C9: the axis-aligned ray hits the near pole exactly -/

/-- C9: for origin `(0, 0, −1.5)` and direction `(0, 0, 1)` the
intersector returns exactly the near pole `(0, 0, −1)`. -/
theorem isect_axis_ray_spec :
    isect ⟨0, 0, -1.5⟩ ⟨0, 0, 1⟩ = some ⟨0, 0, -1⟩ := by
  have hD : ((2 : ℝ) * (-1.5) * 1) ^ 2 -
      4 * ((0 : ℝ) ^ 2 + 0 ^ 2 + 1 ^ 2) * ((-1.5 : ℝ) ^ 2 - 1) = 4 := by
    norm_num
  have hs : Real.sqrt 4 = 2 := by
    rw [show (4 : ℝ) = 2 ^ 2 by norm_num]
    exact Real.sqrt_sq (by norm_num)
  simp only [isect, hD]
  rw [if_neg (by norm_num)]
  simp only [Option.map_some, Vec3.add, Vec3.mul, hs]
  norm_num [Vec3.mk.injEq]

end
